import Mathlib

/-!
Verification of the static import analyzer in `py_check_imports.py`.

The development shallowly embeds the program:

* `Node` is the fragment of the Python abstract syntax tree that the
  analyzer inspects (`ast.Import`, `ast.ImportFrom`, `ast.Name`,
  `ast.Attribute`, plus container statements through which the traversal
  descends).  Only import nodes carry the line number the program reads;
  other nodes' locations are never consulted by the analyzer.
* `walk` is `ast.walk`: a breadth-first traversal implemented with a
  FIFO queue, yielding each node before enqueuing its children.
* `extract` is the loop at lines 27-46 of the source: it folds over the
  walked nodes, recording the bound-name set `imports`, the last-write-wins
  map `import_aliases`, and the per-statement-text line lists
  `import_statements`.
* `find_unused_and_duplicate_imports_in_file` is the per-file analyzer,
  including its `try/except` clauses; reading and parsing are external
  effects, so its input is the observable outcome of those two steps.
  The Python `set` of unused names is iterated in a hash-dependent order;
  that order is passed in explicitly as `enum` and constrained by
  `ValidEnum` in the theorems.
* `mainRun` is `main` minus the argument parsing and rendering: the
  directory/file/invalid-path dispatch, the accumulation loop, the
  partition of the shared unused/error channel, and the three final sorts
  (Python's `sorted` is stable; `insSort` below is the stable insertion
  sort, which agrees with any stable sort for a fixed key).
-/

/-- An `ast.alias` node: `name` optionally aliased by `asname`. -/
structure PyAlias where
  name : String
  asname : Option String
  deriving DecidableEq, Repr

/-- The fragment of the Python AST the analyzer inspects.  Line numbers are
kept only where the program reads them (`node.lineno` of import nodes). -/
inductive Node where
  | module (body : List Node)
  | importStmt (lineno : Nat) (names : List PyAlias)
  | importFrom (lineno : Nat) (module : Option String) (names : List PyAlias)
  | name (id : String)
  | attribute (value : Node) (attr : String)
  | call (func : Node) (args : List Node)
  | exprStmt (value : Node)
  | assign (targets : List Node) (value : Node)
  | annAssign (target : Node) (annot : Node) (value : Option Node)
  | functionDef (fname : String) (body : List Node)
  | classDef (cname : String) (body : List Node)

/-- `ast.iter_child_nodes`, restricted to children that are themselves
statements or expressions (`alias` and `ctx` children carry no `Name`
nodes and no import nodes, and are inert for this analyzer). -/
def Node.children : Node → List Node
  | .module body => body
  | .importStmt _ _ => []
  | .importFrom _ _ _ => []
  | .name _ => []
  | .attribute v _ => [v]
  | .call f args => f :: args
  | .exprStmt v => [v]
  | .assign ts v => ts ++ [v]
  | .annAssign t a v => t :: a :: v.toList
  | .functionDef _ body => body
  | .classDef _ body => body

mutual

/-- Number of nodes in a tree; supplies the fuel for `walk`. -/
def Node.weight : Node → Nat
  | .module body => 1 + weightList body
  | .importStmt _ _ => 1
  | .importFrom _ _ _ => 1
  | .name _ => 1
  | .attribute v _ => 1 + v.weight
  | .call f args => 1 + f.weight + weightList args
  | .exprStmt v => 1 + v.weight
  | .assign ts v => 1 + weightList ts + v.weight
  | .annAssign t a v => 1 + t.weight + a.weight + (match v with
      | some x => x.weight
      | none => 0)
  | .functionDef _ body => 1 + weightList body
  | .classDef _ body => 1 + weightList body

/-- Total number of nodes in a forest. -/
def weightList : List Node → Nat
  | [] => 0
  | n :: ns => n.weight + weightList ns

end

/-- `ast.walk`: pop a node from the front of the queue, yield it, push its
children at the back.  Structured with explicit fuel so that it is a
structural recursion; `walk` supplies enough fuel for the whole tree. -/
def walkAux : Nat → List Node → List Node
  | _, [] => []
  | 0, _ :: _ => []
  | fuel + 1, n :: rest => n :: walkAux fuel (rest ++ n.children)

/-- `ast.walk tree` as a list of nodes in breadth-first order. -/
def walk (t : Node) : List Node := walkAux t.weight [t]

/-- One import binding: (bound name, line number, canonical statement text),
exactly the triple the loop body at lines 28-46 computes per `alias`. -/
abbrev Binding := String × Nat × String

/-- `alias.name.split(".")[0]`: the prefix of the dotted path before the
first dot (the whole string when no dot occurs). -/
def firstSegment (s : String) : String :=
  String.mk (s.toList.takeWhile (fun c => c ≠ '.'))

/-- The canonical single-target text of a plain import,
`f"import {alias.name}" + (f" as {alias.asname}" if alias.asname else "")`. -/
def importText (a : PyAlias) : String :=
  "import " ++ a.name ++ (match a.asname with | some x => " as " ++ x | none => "")

/-- The canonical single-target text of a from-import. -/
def fromText (module : Option String) (a : PyAlias) : String :=
  "from " ++ module.getD "" ++ " import " ++ a.name ++
    (match a.asname with | some x => " as " ++ x | none => "")

/-- The bindings a single walked node contributes, in `node.names` order:
for `ast.Import` the bound name is the alias if present, else the first
dotted segment; for `ast.ImportFrom` the alias if present, else the name. -/
def bindingsOf : Node → List Binding
  | .importStmt ln names =>
      names.map (fun a => (a.asname.getD (firstSegment a.name), ln, importText a))
  | .importFrom ln m names =>
      names.map (fun a => (a.asname.getD a.name, ln, fromText m a))
  | _ => []

/-- All bindings of the tree in `ast.walk` order, flattening each node's
per-alias loop: this is the exact sequence of iterations of the extraction
loop at lines 27-46. -/
def allBindings (t : Node) : List Binding := (walk t).flatMap bindingsOf

/-- The three accumulators of the extraction loop. `boundSet` models the
`imports` set (only membership is ever consumed); `aliasMap` models the
`import_aliases` dict (only keyed lookup is ever consumed, so a function
is an observationally faithful model); `stmtGroups` models the
`import_statements` defaultdict, whose key-insertion order and per-key
append order are both observable. -/
structure ExtractSt where
  boundSet : List String
  aliasMap : String → Option (Nat × String)
  stmtGroups : List (String × List Nat)

def initSt : ExtractSt := ⟨[], fun _ => none, []⟩

/-- `import_statements[stmt].append(line)` on an insertion-ordered dict. -/
def dictAppend (g : List (String × List Nat)) (k : String) (v : Nat) :
    List (String × List Nat) :=
  if (g.map Prod.fst).contains k then
    g.map (fun p => if p.1 == k then (p.1, p.2 ++ [v]) else p)
  else
    g ++ [(k, [v])]

/-- One iteration of the extraction loop body for a single binding. -/
def addBinding (st : ExtractSt) (b : Binding) : ExtractSt :=
  { boundSet := if st.boundSet.contains b.1 then st.boundSet else st.boundSet ++ [b.1]
    aliasMap := fun k => if k == b.1 then some b.2 else st.aliasMap k
    stmtGroups := dictAppend st.stmtGroups b.2.2 b.2.1 }

/-- The extraction loop at lines 27-46. -/
def extract (t : Node) : ExtractSt := (allBindings t).foldl addBinding initSt

/-- `used` membership: the `ImportVisitor` traverses the whole tree and
collects every `ast.Name`'s `id` into a set; only membership in that set is
ever consumed, so we test it directly over the traversed nodes. -/
def usedContains (t : Node) (s : String) : Bool :=
  (walk t).any (fun n => match n with | .name i => i == s | _ => false)

/-- The set `imports - used` as a concretely ordered list (first-occurrence
order of bound names).  The Python program iterates this set in a
hash-dependent order; `ValidEnum` below says a list is one such order. -/
def unusedList (t : Node) : List String :=
  (extract t).boundSet.filter (fun nm => !(usedContains t nm))

/-- `enum` is a possible iteration order of the Python set `imports - used`:
duplicate-free and with exactly the membership of `unusedList t`. -/
abbrev ValidEnum (t : Node) (enum : List String) : Prop :=
  enum.Nodup ∧ (∀ s ∈ enum, s ∈ unusedList t) ∧ (∀ s ∈ unusedList t, s ∈ enum)

/-- A record placed in the first component of the analyzer's result: either
`{"file": .., "error": ..}` or `{"file": .., "line": .., "import_statement": ..}`. -/
inductive Rec where
  | errorRec (file : String) (error : String)
  | unusedRec (file : String) (line : Nat) (stmt : String)
  deriving DecidableEq, Repr

/-- Key presence in the underlying Python dict. -/
def Rec.hasKey : Rec → String → Bool
  | .errorRec _ _, k => k == "file" || k == "error"
  | .unusedRec _ _ _, k => k == "file" || k == "line" || k == "import_statement"

def Rec.fileOf : Rec → String
  | .errorRec f _ => f
  | .unusedRec f _ _ => f

/-- `r["line"]`; only ever read on unused records. -/
def Rec.lineOf : Rec → Nat
  | .errorRec _ _ => 0
  | .unusedRec _ l _ => l

/-- A `{"file", "lines", "import_statement"}` duplicate record. -/
structure DupRec where
  file : String
  lines : List Nat
  stmt : String
  deriving DecidableEq, Repr

/-- Build one unused-import record for a name drawn from the unused set;
the `none` branch is unreachable because every enumerated name was bound
(`aliasMap_isSome_of_bound` below), matching the infallible
`import_aliases[name]` lookup at line 62. -/
def mkUnused (fn : String) (st : ExtractSt) (nm : String) : Rec :=
  match st.aliasMap nm with
  | some (ln, s) => .unusedRec fn ln s
  | none => .unusedRec fn 0 ""

/-- Lines 23-74 of the source: analysis of a successfully parsed tree,
producing the unused-import records (in set-iteration order `enum`) and the
duplicate records (groups with more than one recorded line, in key-insertion
order). -/
def analyzeTree (fn : String) (t : Node) (enum : List String) :
    List Rec × List DupRec :=
  let st := extract t
  (enum.map (mkUnused fn st),
   (st.stmtGroups.filter (fun p => 1 < p.2.length)).map (fun p => ⟨fn, p.2, p.1⟩))

/-- Exceptions `open`/`f.read()` can raise.  The `except` clause at line 18
names only the first two; a `UnicodeDecodeError` (raised when the file is
not valid UTF-8; it subclasses `ValueError`, not `OSError`) matches neither
handler. -/
inductive ReadExc where
  | fileNotFound (msg : String)
  | permissionDenied (msg : String)
  | unicodeDecodeFailure (msg : String)
  deriving DecidableEq, Repr

/-- An exception propagating out of the analyzer uncaught. -/
inductive PyExc where
  | readExc (e : ReadExc)
  deriving DecidableEq, Repr

/-- The observable outcome of the read-and-parse prefix of the analyzer:
reading raised, `ast.parse` raised `SyntaxError e` with `str(e) = msg`, or
parsing succeeded.  `enum` records the hash-dependent iteration order of the
unused-name set for this run. -/
inductive AnalyzerInput where
  | readFailure (e : ReadExc)
  | parseFailure (msg : String)
  | parsed (t : Node) (enum : List String)

/-- Lines 11-74: the per-file analyzer, `try/except` included.  A raised
exception matching no handler is returned as `.error`. -/
def find_unused_and_duplicate_imports_in_file (fn : String) :
    AnalyzerInput → Except PyExc (List Rec × List DupRec)
  | .readFailure (.fileNotFound m) => .ok ([.errorRec fn m], [])
  | .readFailure (.permissionDenied m) => .ok ([.errorRec fn m], [])
  | .readFailure (.unicodeDecodeFailure m) =>
      .error (.readExc (.unicodeDecodeFailure m))
  | .parseFailure m => .ok ([.errorRec fn ("SyntaxError: " ++ m)], [])
  | .parsed t enum => .ok (analyzeTree fn t enum)

/-- Strict lexicographic order on char lists: Python's `<` on strings
(code-point lexicographic, shorter prefix first). -/
def charListLt : List Char → List Char → Bool
  | [], [] => false
  | [], _ :: _ => true
  | _ :: _, [] => false
  | a :: as, b :: bs => a < b || (a == b && charListLt as bs)

/-- Python's `<` on strings. -/
def strLt (a b : String) : Bool := charListLt a.toList b.toList

/-- Strict lexicographic order on `(file, line)`, the sort key of line 126. -/
def unusedLt (a b : Rec) : Bool :=
  strLt a.fileOf b.fileOf || (a.fileOf == b.fileOf && a.lineOf < b.lineOf)

/-- Python list comparison on the `lines` field: strict lexicographic. -/
def natListLt : List Nat → List Nat → Bool
  | [], [] => false
  | [], _ :: _ => true
  | _ :: _, [] => false
  | a :: as, b :: bs => a < b || (a == b && natListLt as bs)

/-- Strict lexicographic order on `(file, lines)`, the sort key of line 127. -/
def dupLt (a b : DupRec) : Bool :=
  strLt a.file b.file || (a.file == b.file && natListLt a.lines b.lines)

/-- Strict order on `file`, the sort key of line 128. -/
def errLt (a b : Rec) : Bool := strLt a.fileOf b.fileOf

/-- Stable insertion of `x`: `x` passes `y` only when `y` is strictly
smaller, so elements with equal keys keep their original order, as with
Python's stable `sorted`. -/
def insertLt {α : Type} (lt : α → α → Bool) (x : α) : List α → List α
  | [] => [x]
  | y :: ys => if lt y x then y :: insertLt lt x ys else x :: y :: ys

/-- Stable insertion sort; agrees with Python's `sorted` for the same key
because both are stable and ascending in the key. -/
def insSort {α : Type} (lt : α → α → Bool) : List α → List α
  | [] => []
  | x :: xs => insertLt lt x (insSort lt xs)

/-- The outcome of one invocation of `main` (rendering aside): a fatal
condition printed to stderr followed by `sys.exit(1)` and no findings
output, a crash from an uncaught exception (the interpreter exits nonzero
with a traceback, producing no findings output), or normal completion with
the three sorted collections and implicit exit code 0. -/
inductive RunOutcome where
  | fatalExit (stderrLine : String)
  | crashed (e : PyExc)
  | completed (unused : List Rec) (dups : List DupRec) (errs : List Rec)
  deriving DecidableEq, Repr

/-- The invocation environment: the path names a directory (with the
`.py` files `os.walk` finds, each with its read/parse outcome), a single
file, or neither. -/
inductive PathInput where
  | dir (dirname : String) (files : List (String × AnalyzerInput))
  | file (fname : String) (inp : AnalyzerInput)
  | invalid (path : String)

/-- The accumulation loop of lines 105-112 (also reused for the single-file
branch at 113-119): per file, partition the shared channel by key presence
and extend the three accumulators; an uncaught exception aborts the run. -/
def processFiles : List (String × AnalyzerInput) →
    Except PyExc (List Rec × List DupRec × List Rec)
  | [] => .ok ([], [], [])
  | (fn, inp) :: rest =>
    match find_unused_and_duplicate_imports_in_file fn inp with
    | .error e => .error e
    | .ok (unused, dups) =>
      match processFiles rest with
      | .error e => .error e
      | .ok (ru, rd, re) =>
        .ok ((unused.filter (fun r => r.hasKey "import_statement")) ++ ru,
             dups ++ rd,
             (unused.filter (fun r => r.hasKey "error")) ++ re)

/-- Lines 100-128 of `main`: dispatch on the path, run the accumulation
loop, and sort the three collections. -/
def mainRun : PathInput → RunOutcome
  | .dir d files =>
    if files.isEmpty then
      .fatalExit ("No Python files found in directory: " ++ d)
    else
      match processFiles files with
      | .error e => .crashed e
      | .ok (u, dp, er) =>
          .completed (insSort unusedLt u) (insSort dupLt dp) (insSort errLt er)
  | .file fn inp =>
    match processFiles [(fn, inp)] with
    | .error e => .crashed e
    | .ok (u, dp, er) =>
        .completed (insSort unusedLt u) (insSort dupLt dp) (insSort errLt er)
  | .invalid p =>
    .fatalExit ("Error: '" ++ p ++ "' is not a valid file or directory.")

/-- The process exit code of an outcome: `sys.exit(1)` on the two fatal
conditions, the interpreter's exit code 1 on an uncaught exception, and 0
on normal completion. -/
def exitCode : RunOutcome → Nat
  | .fatalExit _ => 1
  | .crashed _ => 1
  | .completed _ _ _ => 0

/-- `Occurs x t`: the node `x` occurs somewhere in the tree `t`. -/
inductive Occurs : Node → Node → Prop
  | refl (t : Node) : Occurs t t
  | step {x c t : Node} : Occurs x c → c ∈ t.children → Occurs x t

/-- The bindings of the walk that bind the name `nm`, in walk order. -/
def bindingsFor (bs : List Binding) (nm : String) : List Binding :=
  bs.filter (fun b => b.1 == nm)

/-- The line numbers of the walk's bindings whose canonical statement text
is `s`, in walk order. -/
def linesFor (bs : List Binding) (s : String) : List Nat :=
  (bs.filter (fun b => b.2.2 == s)).map (fun b => b.2.1)

/-- `nm` is a bound name introduced by some import statement occurring
anywhere in the tree. -/
def BoundInTree (t : Node) (nm : String) : Prop :=
  ∃ nd, Occurs nd t ∧ ∃ b ∈ bindingsOf nd, b.1 = nm

/-- A name-reference node `Name(id = nm)` occurs anywhere in the tree. -/
def UsedInTree (t : Node) (nm : String) : Prop := Occurs (.name nm) t

/-- The pre-order (depth-first, document-order) traversal of the tree, with
an explicit stack: a node is yielded before its children, and children
before later siblings.  This follows the spec's words ("a pre-order
traversal"); the program itself traverses with `ast.walk`, which is
breadth-first — the two are compared in the C2 theorems. -/
def preorderAux : Nat → List Node → List Node
  | _, [] => []
  | 0, _ :: _ => []
  | fuel + 1, n :: rest => n :: preorderAux fuel (n.children ++ rest)

/-- Pre-order node list of a tree (spec-side traversal). -/
def preorder (t : Node) : List Node := preorderAux t.weight [t]

/-- All bindings in pre-order (spec-side). -/
def preorderBindings (t : Node) : List Binding := (preorder t).flatMap bindingsOf

/-- Following the spec's words: the (line, statement text) of the last
occurrence of an import of `nm` encountered in a pre-order traversal. -/
def specLastPreorder (t : Node) (nm : String) : Option (Nat × String) :=
  ((preorderBindings t).filter (fun b => b.1 == nm)).getLast?.map (fun b => b.2)

/-- The tree of the file `"import json\nimport json\n"`: two plain imports
of `json` on lines 1 and 2. -/
def treeJsonTwice : Node :=
  .module [.importStmt 1 [⟨"json", none⟩], .importStmt 2 [⟨"json", none⟩]]

/-- The tree of the file `"def f():\n    import json\nimport json\n"`: the
same import statement text on line 2 (nested in a function body) and on
line 3 (top level). -/
def treeNested : Node :=
  .module [.functionDef "f" [.importStmt 2 [⟨"json", none⟩]],
           .importStmt 3 [⟨"json", none⟩]]

/-- The tree of the file `"import a, b\n"`: one import statement binding the
two names `a` and `b` on line 1. -/
def treeAB : Node := .module [.importStmt 1 [⟨"a", none⟩, ⟨"b", none⟩]]

/-- The tree of the file `"import os\nimport os as o\n"`. -/
def treeOsAlias : Node :=
  .module [.importStmt 1 [⟨"os", none⟩], .importStmt 2 [⟨"os", some "o"⟩]]

/-! ## Structural lemmas: BFS traversal visits exactly the tree's nodes -/

theorem occurs_iff {x t : Node} :
    Occurs x t ↔ x = t ∨ ∃ c ∈ t.children, Occurs x c := by
  constructor
  · intro h
    cases h with
    | refl => exact Or.inl rfl
    | step ho hc => exact Or.inr ⟨_, hc, ho⟩
  · rintro (rfl | ⟨c, hc, ho⟩)
    · exact .refl x
    · exact .step ho hc

theorem weightList_append (a b : List Node) :
    weightList (a ++ b) = weightList a + weightList b := by
  induction a with
  | nil => simp [weightList]
  | cons n ns ih => simp [weightList, ih]; omega

theorem weight_pos (n : Node) : 1 ≤ n.weight := by
  cases n with
  | annAssign t a v => cases v <;> simp [Node.weight] <;> omega
  | _ => simp [Node.weight] <;> omega

theorem weightList_children_lt (n : Node) : weightList n.children < n.weight := by
  cases n with
  | annAssign t a v =>
      cases v <;>
        simp [Node.children, Node.weight, weightList, Option.toList] <;> omega
  | _ =>
      simp [Node.children, Node.weight, weightList, weightList_append] <;> omega

theorem mem_walkAux {fuel : Nat} {q : List Node} (h : weightList q ≤ fuel) {x : Node} :
    x ∈ walkAux fuel q ↔ ∃ n ∈ q, Occurs x n := by
  induction fuel generalizing q with
  | zero =>
    cases q with
    | nil => simp [walkAux]
    | cons n rest =>
      exfalso
      have := weight_pos n
      simp [weightList] at h
      omega
  | succ f ih =>
    cases q with
    | nil => simp [walkAux]
    | cons n rest =>
      have hlt := weightList_children_lt n
      have hq : weightList (n :: rest) = n.weight + weightList rest := rfl
      have hm : weightList (rest ++ n.children) ≤ f := by
        rw [weightList_append]
        rw [hq] at h
        omega
      rw [walkAux]
      simp only [List.mem_cons, ih hm, List.mem_append]
      constructor
      · rintro (rfl | ⟨m, hm2 | hm2, ho⟩)
        · exact ⟨x, Or.inl rfl, .refl x⟩
        · exact ⟨m, Or.inr hm2, ho⟩
        · exact ⟨n, Or.inl rfl, .step ho hm2⟩
      · rintro ⟨m, rfl | hmr, ho⟩
        · rcases occurs_iff.mp ho with rfl | ⟨c, hc, hoc⟩
          · exact Or.inl rfl
          · exact Or.inr ⟨c, Or.inr hc, hoc⟩
        · exact Or.inr ⟨m, Or.inl hmr, ho⟩

theorem mem_walk {x t : Node} : x ∈ walk t ↔ Occurs x t := by
  have h : weightList [t] ≤ t.weight := by simp [weightList]
  rw [walk, mem_walkAux h]
  simp

/-- A name-reference node with `id = s` occurs in the tree iff the
`ImportVisitor` records `s` as used. -/
theorem usedContains_iff (t : Node) (s : String) :
    usedContains t s = true ↔ Occurs (.name s) t := by
  rw [usedContains, List.any_eq_true]
  constructor
  · rintro ⟨n, hn, hp⟩
    cases n with
    | name i =>
        have : i = s := by simpa using hp
        subst this
        exact mem_walk.mp hn
    | _ => simp at hp
  · intro h
    exact ⟨.name s, mem_walk.mpr h, by simp⟩

/-- A binding is produced by the walk exactly when some node of the tree
contributes it. -/
theorem mem_allBindings {t : Node} {b : Binding} :
    b ∈ allBindings t ↔ ∃ nd, Occurs nd t ∧ b ∈ bindingsOf nd := by
  simp only [allBindings, List.mem_flatMap, mem_walk]

/-! ## Characterization of the extraction loop's three accumulators -/

theorem linesFor_append (l₁ l₂ : List Binding) (s : String) :
    linesFor (l₁ ++ l₂) s = linesFor l₁ s ++ linesFor l₂ s := by
  simp [linesFor, List.filter_append]

/-- The `import_aliases` dict after the loop maps each name to the line and
statement text of the last binding of that name in walk order. -/
theorem aliasMap_fold (bs : List Binding) (nm : String) :
    (bs.foldl addBinding initSt).aliasMap nm =
      ((bindingsFor bs nm).getLast?).map (fun b => b.2) := by
  induction bs using List.reverseRecOn with
  | nil => simp [initSt, bindingsFor]
  | append_singleton l b ih =>
    rw [List.foldl_append, List.foldl_cons, List.foldl_nil]
    show (if nm == b.1 then some b.2 else (l.foldl addBinding initSt).aliasMap nm) = _
    rw [bindingsFor, List.filter_append]
    by_cases hb : b.1 = nm
    · subst hb
      simp [List.getLast?_concat]
    · have h1 : (nm == b.1) = false := by
        simp [Ne.symm hb]
      have h2 : List.filter (fun x => x.1 == nm) [b] = [] := by
        have hpb : ((fun (x : Binding) => x.1 == nm) b) = false := by
          simpa using hb
        simp [List.filter_cons, hpb]
      rw [h1, h2, List.append_nil]
      simpa [bindingsFor] using ih

/-- The `imports` set after the loop contains exactly the bound names. -/
theorem boundSet_fold (bs : List Binding) (nm : String) :
    nm ∈ (bs.foldl addBinding initSt).boundSet ↔ ∃ b ∈ bs, b.1 = nm := by
  induction bs using List.reverseRecOn with
  | nil => simp [initSt]
  | append_singleton l b ih =>
    rw [List.foldl_append, List.foldl_cons, List.foldl_nil]
    show nm ∈ (if (l.foldl addBinding initSt).boundSet.contains b.1 then _ else _) ↔ _
    constructor
    · intro h
      by_cases hc : (l.foldl addBinding initSt).boundSet.contains b.1
      · rw [if_pos hc] at h
        rcases ih.mp h with ⟨b', hb', rfl⟩
        exact ⟨b', List.mem_append_left _ hb', rfl⟩
      · rw [if_neg hc] at h
        rcases List.mem_append.mp h with h' | h'
        · rcases ih.mp h' with ⟨b', hb', rfl⟩
          exact ⟨b', List.mem_append_left _ hb', rfl⟩
        · refine ⟨b, List.mem_append_right _ (by simp), ?_⟩
          have : nm = b.1 := by simpa using h'
          exact this.symm
    · rintro ⟨b', hb', rfl⟩
      rcases List.mem_append.mp hb' with h' | h'
      · have hmem := ih.mpr ⟨b', h', rfl⟩
        by_cases hc : (l.foldl addBinding initSt).boundSet.contains b.1
        · rwa [if_pos hc]
        · rw [if_neg hc]
          exact List.mem_append_left _ hmem
      · have : b' = b := by simpa using h'
        subst this
        by_cases hc : (l.foldl addBinding initSt).boundSet.contains b'.1
        · rw [if_pos hc]
          simpa using hc
        · rw [if_neg hc]
          exact List.mem_append_right _ (by simp)

theorem linesFor_singleton (b : Binding) (s : String) :
    linesFor [b] s = if b.2.2 == s then [b.2.1] else [] := by
  by_cases h : b.2.2 == s <;> simp [linesFor, List.filter_cons, h]

/-- Keys of the `import_statements` dict after one append: unchanged when
the key is present, appended at the end otherwise. -/
theorem dictAppend_keys (g : List (String × List Nat)) (k : String) (v : Nat) :
    (dictAppend g k v).map Prod.fst =
      if (g.map Prod.fst).contains k then g.map Prod.fst
      else g.map Prod.fst ++ [k] := by
  rw [dictAppend]
  by_cases h : (g.map Prod.fst).contains k
  · rw [if_pos h, if_pos h, List.map_map]
    apply List.map_congr_left
    intro p hp
    by_cases hpk : p.1 == k <;> simp [Function.comp, hpk]
  · rw [if_neg h, if_neg h]
    simp

/-- Invariant of the `import_statements` accumulator after the whole loop:
its keys are duplicate-free, each entry's list is exactly the walk-order
line numbers of its statement text, and a key is present exactly when its
text occurs among the bindings. -/
theorem stmtGroups_fold (bs : List Binding) :
    ((bs.foldl addBinding initSt).stmtGroups.map Prod.fst).Nodup ∧
    (∀ p ∈ (bs.foldl addBinding initSt).stmtGroups, p.2 = linesFor bs p.1) ∧
    (∀ s, s ∈ (bs.foldl addBinding initSt).stmtGroups.map Prod.fst ↔
      linesFor bs s ≠ []) := by
  induction bs using List.reverseRecOn with
  | nil => simp [initSt, linesFor]
  | append_singleton l b ih =>
    obtain ⟨ihnd, ihent, ihkeys⟩ := ih
    rw [List.foldl_append, List.foldl_cons, List.foldl_nil]
    have hsg : (addBinding (l.foldl addBinding initSt) b).stmtGroups =
        dictAppend (l.foldl addBinding initSt).stmtGroups b.2.2 b.2.1 := rfl
    rw [hsg]
    set g := (l.foldl addBinding initSt).stmtGroups with hgdef
    have hlines : ∀ s, linesFor (l ++ [b]) s =
        linesFor l s ++ (if b.2.2 == s then [b.2.1] else []) := by
      intro s
      rw [linesFor_append, linesFor_singleton]
    by_cases hk : (g.map Prod.fst).contains b.2.2
    · have hkeys' : (dictAppend g b.2.2 b.2.1).map Prod.fst = g.map Prod.fst := by
        rw [dictAppend_keys, if_pos hk]
      refine ⟨by rw [hkeys']; exact ihnd, ?_, ?_⟩
      · intro p hp
        rw [dictAppend, if_pos hk] at hp
        rcases List.mem_map.mp hp with ⟨q, hq, rfl⟩
        by_cases hqk : q.1 == b.2.2
        · have hqk' : q.1 = b.2.2 := by simpa using hqk
          rw [if_pos hqk]
          have := ihent q hq
          rw [hlines]
          simp only [hqk']
          rw [← hqk', this, hqk']
          simp
        · rw [if_neg (by simpa using hqk)]
          rw [hlines, ihent q hq]
          have : (b.2.2 == q.1) = false := by
            have hne : ¬ q.1 = b.2.2 := by simpa using hqk
            simpa using fun h => hne h.symm
          rw [this]
          simp
      · intro s
        rw [hkeys', ihkeys, hlines]
        constructor
        · intro h
          simp only [ne_eq, List.append_eq_nil]
          intro ⟨h1, _⟩
          exact h h1
        · intro h
          by_cases hbs : b.2.2 == s
          · have : s ∈ g.map Prod.fst := by
              have : b.2.2 = s := by simpa using hbs
              rw [← this]
              simpa using hk
            rw [ihkeys] at this
            exact this
          · rw [if_neg hbs] at h
            simpa using h
    · have hnew : dictAppend g b.2.2 b.2.1 = g ++ [(b.2.2, [b.2.1])] := by
        rw [dictAppend, if_neg hk]
      have hkeys' : (dictAppend g b.2.2 b.2.1).map Prod.fst =
          g.map Prod.fst ++ [b.2.2] := by
        rw [dictAppend_keys, if_neg hk]
      have hbnotin : b.2.2 ∉ g.map Prod.fst := by
        intro h
        exact hk (by simpa using h)
      have hempty : linesFor l b.2.2 = [] := by
        by_contra h
        exact hbnotin ((ihkeys b.2.2).mpr h)
      refine ⟨?_, ?_, ?_⟩
      · rw [hkeys', List.nodup_append]
        refine ⟨ihnd, List.nodup_singleton _, ?_⟩
        intro a ha hb2
        have : a = b.2.2 := by simpa using hb2
        exact hbnotin (this ▸ ha)
      · intro p hp
        rw [hnew] at hp
        rcases List.mem_append.mp hp with hp' | hp'
        · have hpk : ¬ p.1 = b.2.2 := by
            intro h
            exact hbnotin (h ▸ List.mem_map.mpr ⟨p, hp', rfl⟩)
          rw [hlines, ihent p hp']
          have : (b.2.2 == p.1) = false := by
            simpa using fun h => hpk h.symm
          rw [this]
          simp
        · have hpb : p = (b.2.2, [b.2.1]) := by simpa using hp'
          subst hpb
          rw [hlines]
          simp [hempty]
      · intro s
        rw [hkeys', hlines]
        constructor
        · intro h
          rcases List.mem_append.mp h with h' | h'
          · have := (ihkeys s).mp h'
            simp only [ne_eq, List.append_eq_nil]
            intro ⟨h1, _⟩
            exact this h1
          · have hsb : s = b.2.2 := by simpa using h'
            subst hsb
            simp
        · intro h
          by_cases hbs : b.2.2 == s
          · have : b.2.2 = s := by simpa using hbs
            exact List.mem_append_right _ (by simp [this])
          · rw [if_neg hbs, List.append_nil] at h
            exact List.mem_append_left _ ((ihkeys s).mpr h)

/-! ## Declarative semantics, connected to the computed accumulators -/

theorem extract_boundSet_iff (t : Node) (nm : String) :
    nm ∈ (extract t).boundSet ↔ BoundInTree t nm := by
  rw [extract, boundSet_fold]
  constructor
  · rintro ⟨b, hb, rfl⟩
    rcases mem_allBindings.mp hb with ⟨nd, ho, hbnd⟩
    exact ⟨nd, ho, b, hbnd, rfl⟩
  · rintro ⟨nd, ho, b, hbnd, rfl⟩
    exact ⟨b, mem_allBindings.mpr ⟨nd, ho, hbnd⟩, rfl⟩

/-- Membership in the computed unused-name set is exactly "bound somewhere,
referenced nowhere". -/
theorem unusedList_iff (t : Node) (nm : String) :
    nm ∈ unusedList t ↔ BoundInTree t nm ∧ ¬ UsedInTree t nm := by
  rw [unusedList, List.mem_filter]
  rw [extract_boundSet_iff]
  constructor
  · rintro ⟨hb, hu⟩
    refine ⟨hb, fun hused => ?_⟩
    rw [Bool.not_eq_true'] at hu
    have hc : usedContains t nm = true := (usedContains_iff t nm).mpr hused
    rw [hu] at hc
    cases hc
  · rintro ⟨hb, hu⟩
    refine ⟨hb, ?_⟩
    rw [Bool.not_eq_true']
    by_contra h
    rw [Bool.not_eq_false] at h
    exact hu ((usedContains_iff t nm).mp h)

/-- Every name in the `imports` set has an `import_aliases` entry, so the
lookup `import_aliases[name]` at line 62 cannot raise `KeyError`. -/
theorem aliasMap_isSome_of_bound {t : Node} {nm : String}
    (h : nm ∈ (extract t).boundSet) : ((extract t).aliasMap nm).isSome := by
  rw [extract, boundSet_fold] at h
  rw [extract, aliasMap_fold]
  rcases h with ⟨b, hb, rfl⟩
  have hne : bindingsFor (allBindings t) b.1 ≠ [] := by
    intro hnil
    have hmem : b ∈ bindingsFor (allBindings t) b.1 :=
      List.mem_filter.mpr ⟨hb, by simp⟩
    rw [hnil] at hmem
    simp at hmem
  have := List.getLast?_isSome.mpr hne
  rcases Option.isSome_iff_exists.mp this with ⟨x, hx⟩
  rw [hx]
  rfl

/-- An entry of the `import_statements` dict is exactly a statement text
occurring among the bindings, paired with all its walk-order lines. -/
theorem mem_stmtGroups_iff (t : Node) (p : String × List Nat) :
    p ∈ (extract t).stmtGroups ↔
      linesFor (allBindings t) p.1 ≠ [] ∧ p.2 = linesFor (allBindings t) p.1 := by
  obtain ⟨hnd, hent, hkeys⟩ := stmtGroups_fold (allBindings t)
  rw [extract]
  constructor
  · intro hp
    refine ⟨?_, hent p hp⟩
    exact (hkeys p.1).mp (List.mem_map.mpr ⟨p, hp, rfl⟩)
  · rintro ⟨hne, hval⟩
    rcases List.mem_map.mp ((hkeys p.1).mpr hne) with ⟨q, hq, hfst⟩
    have : q.2 = linesFor (allBindings t) p.1 := by
      rw [hent q hq, hfst]
    have hqp : q = p := by
      rcases q with ⟨q1, q2⟩
      rcases p with ⟨p1, p2⟩
      simp only at hfst this hval
      rw [Prod.mk.injEq]
      exact ⟨hfst, by rw [this, hval]⟩
    rwa [hqp] at hq

/-! ## The stable insertion sort -/

theorem insertLt_perm {α : Type} (lt : α → α → Bool) (x : α) (l : List α) :
    (insertLt lt x l).Perm (x :: l) := by
  induction l with
  | nil => simp [insertLt]
  | cons y ys ih =>
    rw [insertLt]
    by_cases h : lt y x
    · rw [if_pos h]
      exact (ih.cons y).trans (List.Perm.swap x y ys)
    · rw [if_neg h]

theorem insSort_perm {α : Type} (lt : α → α → Bool) (l : List α) :
    (insSort lt l).Perm l := by
  induction l with
  | nil => simp [insSort]
  | cons x xs ih =>
    rw [insSort]
    exact (insertLt_perm lt x (insSort lt xs)).trans (ih.cons x)

/-! ## Iteration orders of the unused-name set -/

theorem validEnum_perm {t : Node} {e₁ e₂ : List String}
    (h₁ : ValidEnum t e₁) (h₂ : ValidEnum t e₂) : e₁.Perm e₂ := by
  refine (List.perm_ext_iff_of_nodup h₁.1 h₂.1).mpr fun a => ?_
  constructor
  · intro ha
    exact h₂.2.2 a (h₁.2.1 a ha)
  · intro ha
    exact h₁.2.2 a (h₂.2.1 a ha)

theorem enum_eq_singleton {α : Type} {e : List α} {a : α}
    (hnd : e.Nodup) (hmem : ∀ s, s ∈ e ↔ s = a) : e = [a] := by
  cases e with
  | nil => exact absurd ((hmem a).mpr rfl) (by simp)
  | cons x xs =>
    have hx : x = a := (hmem x).mp (by simp)
    subst hx
    have hxs : xs = [] := by
      cases xs with
      | nil => rfl
      | cons y ys =>
        have hy : y = x := (hmem y).mp (by simp)
        subst hy
        simp at hnd
    rw [hxs]

/-! ## Record shape helpers -/

theorem hasKey_unusedRec_stmt (f : String) (l : Nat) (s : String) :
    (Rec.unusedRec f l s).hasKey "import_statement" = true := rfl

theorem hasKey_unusedRec_err (f : String) (l : Nat) (s : String) :
    (Rec.unusedRec f l s).hasKey "error" = false := rfl

theorem hasKey_errorRec_stmt (f m : String) :
    (Rec.errorRec f m).hasKey "import_statement" = false := rfl

theorem hasKey_errorRec_err (f m : String) :
    (Rec.errorRec f m).hasKey "error" = true := rfl

theorem mkUnused_is_unusedRec (fn : String) (st : ExtractSt) (nm : String) :
    ∃ l s, mkUnused fn st nm = .unusedRec fn l s := by
  cases h : st.aliasMap nm with
  | none => exact ⟨0, "", by simp [mkUnused, h]⟩
  | some v => exact ⟨v.1, v.2, by simp [mkUnused, h]⟩

theorem filter_stmt_map_mkUnused (fn : String) (st : ExtractSt) (l : List String) :
    (l.map (mkUnused fn st)).filter (fun r => r.hasKey "import_statement") =
      l.map (mkUnused fn st) := by
  apply List.filter_eq_self.mpr
  intro r hr
  rcases List.mem_map.mp hr with ⟨nm, _, rfl⟩
  rcases mkUnused_is_unusedRec fn st nm with ⟨ln, s, hmk⟩
  rw [hmk]
  exact hasKey_unusedRec_stmt fn ln s

theorem filter_err_map_mkUnused (fn : String) (st : ExtractSt) (l : List String) :
    (l.map (mkUnused fn st)).filter (fun r => r.hasKey "error") = [] := by
  apply List.filter_eq_nil_iff.mpr
  intro r hr
  rcases List.mem_map.mp hr with ⟨nm, _, rfl⟩
  rcases mkUnused_is_unusedRec fn st nm with ⟨ln, s, hmk⟩
  rw [hmk, hasKey_unusedRec_err]
  simp

/-! ## Claims -/

/-- C1: for every successfully parsed file, the names reported as unused
ones are exactly the bound names introduced by import statements
anywhere in the tree minus the identifiers appearing as name-reference
nodes anywhere in the tree; the analyzer emits exactly one UnusedImport
record per such name, taken from the enumeration of that set difference. -/
theorem C1_unused_iff (fn : String) (t : Node) (enum : List String)
    (h : ValidEnum t enum) :
    (∀ nm, nm ∈ enum ↔ (BoundInTree t nm ∧ ¬ UsedInTree t nm)) ∧
    (analyzeTree fn t enum).1 = enum.map (mkUnused fn (extract t)) := by
  refine ⟨fun nm => ?_, rfl⟩
  constructor
  · intro hm
    exact (unusedList_iff t nm).mp (h.2.1 nm hm)
  · intro hm
    exact h.2.2 nm ((unusedList_iff t nm).mpr hm)

theorem C1_witness :
    ValidEnum treeJsonTwice ["json"] ∧
    ((∀ nm, nm ∈ ["json"] ↔
        (BoundInTree treeJsonTwice nm ∧ ¬ UsedInTree treeJsonTwice nm)) ∧
      (analyzeTree "f.py" treeJsonTwice ["json"]).1 =
        ["json"].map (mkUnused "f.py" (extract treeJsonTwice))) :=
  ⟨by decide, C1_unused_iff "f.py" treeJsonTwice ["json"] (by decide)⟩

/-- C2 (counterexample): the claim says the (line, statement text) reported
for a multiply-imported name is that of the import occurring last in
PRE-ORDER (document) order.  For the file `"def f():\n    import json\nimport json\n"`
the pre-order-last import of `json` is the top-level one on line 3, but the
analyzer (which walks breadth-first) reports the nested one on line 2. -/
theorem C2_counterexample :
    ValidEnum treeNested ["json"] ∧
    specLastPreorder treeNested "json" = some (3, "import json") ∧
    (analyzeTree "a.py" treeNested ["json"]).1 =
      [.unusedRec "a.py" 2 "import json"] ∧
    (analyzeTree "a.py" treeNested ["json"]).1 ≠
      [.unusedRec "a.py" 3 "import json"] := by
  refine ⟨by decide, by decide, by decide, by decide⟩

/-- C2 (amended): the (line, statement text) recorded for each bound name
is that of the last import of that name in `ast.walk` (breadth-first,
level-by-level) order.  Among imports at the same nesting depth this is
document order, but an import nested deeper in the tree is visited after —
and hence overwrites — a textually later import at a shallower depth. -/
theorem C2_last_walk_binding (t : Node) (nm : String) :
    (extract t).aliasMap nm =
      ((bindingsFor (allBindings t) nm).getLast?).map (fun b => b.2) :=
  aliasMap_fold (allBindings t) nm

/-- C3 (amended): the per-file analyzer catches exactly `FileNotFoundError`
and `PermissionError` from reading and `SyntaxError` from parsing,
converting each into a single FileError record — the syntax failure with
its message prefixed by "SyntaxError: " to distinguish it from an IO
failure — with no duplicate findings; any other per-file exception
propagates out of the analyzer uncaught. -/
theorem C3_caught_failures (fn m : String) :
    find_unused_and_duplicate_imports_in_file fn
        (.readFailure (.fileNotFound m)) = .ok ([.errorRec fn m], []) ∧
    find_unused_and_duplicate_imports_in_file fn
        (.readFailure (.permissionDenied m)) = .ok ([.errorRec fn m], []) ∧
    find_unused_and_duplicate_imports_in_file fn
        (.parseFailure m) = .ok ([.errorRec fn ("SyntaxError: " ++ m)], []) :=
  ⟨rfl, rfl, rfl⟩

/-- C3 (counterexample): not every per-file read failure is caught — a
`UnicodeDecodeError` raised while reading a non-UTF-8 file (it subclasses
`ValueError`, so the `except (FileNotFoundError, PermissionError)` clause
does not match it) escapes the analyzer as an uncaught exception instead of
becoming a FileError record. -/
theorem C3_counterexample :
    find_unused_and_duplicate_imports_in_file "bad.py"
        (.readFailure (.unicodeDecodeFailure
          "'utf-8' codec can't decode byte 0xff in position 0: invalid start byte")) =
      .error (.readExc (.unicodeDecodeFailure
        "'utf-8' codec can't decode byte 0xff in position 0: invalid start byte")) :=
  rfl

/-- C4 (amended): a DuplicateImport's line list is in `ast.walk`
(breadth-first) order, so it is sorted ascending whenever the walk meets
the file's import bindings in nondecreasing line order — in particular when
all the duplicated statements sit at the same nesting depth — but not in
general across nesting depths. -/
theorem C4_sorted_of_monotone (fn : String) (t : Node) (enum : List String)
    (h : ((allBindings t).map (fun b => b.2.1)).Pairwise (· ≤ ·)) :
    ∀ d ∈ (analyzeTree fn t enum).2, d.lines.Pairwise (· ≤ ·) := by
  intro d hd
  rcases List.mem_map.mp hd with ⟨p, hp, rfl⟩
  have hp' : p ∈ (extract t).stmtGroups := (List.mem_filter.mp hp).1
  have hchar := (mem_stmtGroups_iff t p).mp hp'
  show p.2.Pairwise (· ≤ ·)
  rw [hchar.2, linesFor]
  rw [List.pairwise_map]
  have hPW : (allBindings t).Pairwise (fun a b => a.2.1 ≤ b.2.1) := by
    rwa [List.pairwise_map] at h
  exact hPW.filter (fun b => b.2.2 == p.1)

theorem C4_witness :
    (((allBindings treeJsonTwice).map (fun b => b.2.1)).Pairwise (· ≤ ·)) ∧
    (∀ d ∈ (analyzeTree "f.py" treeJsonTwice ["json"]).2,
      d.lines.Pairwise (· ≤ ·)) :=
  ⟨by decide, C4_sorted_of_monotone "f.py" treeJsonTwice ["json"] (by decide)⟩

/-- C4 (counterexample): for `"def f():\n    import json\nimport json\n"`
the single DuplicateImport record carries its line numbers in walk order
[3, 2], which is not sorted ascending — the claim fails for duplicated
statements at different nesting depths. -/
theorem C4_counterexample :
    (analyzeTree "a.py" treeNested ["json"]).2 =
      [⟨"a.py", [3, 2], "import json"⟩] ∧
    ¬ (([3, 2] : List Nat).Pairwise (· ≤ ·)) := by
  refine ⟨by decide, by decide⟩

/-! ## Reduction helpers for the batch runner -/

theorem processFiles_cons_ok {fn : String} {inp : AnalyzerInput}
    {rest : List (String × AnalyzerInput)} {u : List Rec} {dp : List DupRec}
    {ru : List Rec} {rd : List DupRec} {re : List Rec}
    (hf : find_unused_and_duplicate_imports_in_file fn inp = .ok (u, dp))
    (hr : processFiles rest = .ok (ru, rd, re)) :
    processFiles ((fn, inp) :: rest) =
      .ok (u.filter (fun r => r.hasKey "import_statement") ++ ru,
           dp ++ rd,
           u.filter (fun r => r.hasKey "error") ++ re) := by
  rw [processFiles, hf, hr]

theorem mainRun_dir_cons (d : String) (f : String × AnalyzerInput)
    (fs : List (String × AnalyzerInput)) :
    mainRun (.dir d (f :: fs)) =
      (match processFiles (f :: fs) with
       | .error e => RunOutcome.crashed e
       | .ok (u, dp, er) =>
           .completed (insSort unusedLt u) (insSort dupLt dp)
             (insSort errLt er)) := rfl

theorem mainRun_file_eq (fn : String) (inp : AnalyzerInput) :
    mainRun (.file fn inp) =
      (match processFiles [(fn, inp)] with
       | .error e => RunOutcome.crashed e
       | .ok (u, dp, er) =>
           .completed (insSort unusedLt u) (insSort dupLt dp)
             (insSort errLt er)) := rfl

/-- C5: a caught per-file failure in one file of a directory never prevents
analysis of the others — for a directory holding a file that fails to parse
(a `SyntaxError`) and a parsed file, the parsed file's unused and duplicate
findings are accumulated and reported, and the failing file contributes
exactly the one record `{"file": f₁, "error": "SyntaxError: " ++ m}` to the
errors collection. -/
theorem C5_isolation (d f₁ m f₂ : String) (t : Node) (enum : List String) :
    mainRun (.dir d [(f₁, .parseFailure m), (f₂, .parsed t enum)]) =
      .completed (insSort unusedLt (enum.map (mkUnused f₂ (extract t))))
        (insSort dupLt (analyzeTree f₂ t enum).2)
        [.errorRec f₁ ("SyntaxError: " ++ m)] := by
  have h2 : processFiles [(f₂, .parsed t enum)] =
      .ok (enum.map (mkUnused f₂ (extract t)), (analyzeTree f₂ t enum).2, []) := by
    have := @processFiles_cons_ok f₂ (.parsed t enum) []
      (enum.map (mkUnused f₂ (extract t))) (analyzeTree f₂ t enum).2
      [] [] [] rfl rfl
    rwa [filter_stmt_map_mkUnused, filter_err_map_mkUnused,
      List.append_nil, List.append_nil, List.append_nil] at this
  have hferr : List.filter (fun r => r.hasKey "import_statement")
      [Rec.errorRec f₁ ("SyntaxError: " ++ m)] = [] := rfl
  have hferr2 : List.filter (fun r => r.hasKey "error")
      [Rec.errorRec f₁ ("SyntaxError: " ++ m)] =
        [Rec.errorRec f₁ ("SyntaxError: " ++ m)] := rfl
  have h1 : processFiles [(f₁, .parseFailure m), (f₂, .parsed t enum)] =
      .ok (enum.map (mkUnused f₂ (extract t)), (analyzeTree f₂ t enum).2,
           [Rec.errorRec f₁ ("SyntaxError: " ++ m)]) := by
    have := @processFiles_cons_ok f₁ (.parseFailure m) [(f₂, .parsed t enum)]
      [Rec.errorRec f₁ ("SyntaxError: " ++ m)] [] _ _ _ rfl h2
    rwa [hferr, hferr2, List.nil_append, List.nil_append, List.append_nil] at this
  rw [mainRun_dir_cons, h1]
  rfl

/-- C6 (amended): the run exits with code 1 exactly when the directory
holds no `.py` files, the path is neither file nor directory, or some
per-file analysis raises an uncaught exception (the interpreter then exits
nonzero with a traceback); the two fatal conditions print their message to
stderr and produce no findings output; in every other case — findings or
not — the exit code is 0. -/
theorem C6_exit_iff (p : PathInput) :
    (exitCode (mainRun p) = 1 ↔
      (∃ d, p = .dir d []) ∨ (∃ s, p = .invalid s) ∨
        (∃ e, mainRun p = .crashed e)) ∧
    (∀ d, p = .dir d [] →
      mainRun p = .fatalExit ("No Python files found in directory: " ++ d)) ∧
    (∀ s, p = .invalid s →
      mainRun p = .fatalExit ("Error: '" ++ s ++
        "' is not a valid file or directory.")) ∧
    (exitCode (mainRun p) = 0 ∨ exitCode (mainRun p) = 1) := by
  cases p with
  | dir d files =>
    cases files with
    | nil =>
      refine ⟨⟨fun _ => Or.inl ⟨d, rfl⟩, fun _ => rfl⟩, ?_, ?_, Or.inr rfl⟩
      · intro d' hd'
        injection hd' with h1 h2
        subst h1
        rfl
      · intro s hs
        exact absurd hs (by simp)
    | cons f fs =>
      cases hpf : processFiles (f :: fs) with
      | error e =>
        have hm2 : mainRun (.dir d (f :: fs)) = .crashed e := by
          rw [mainRun_dir_cons, hpf]
        refine ⟨⟨fun _ => Or.inr (Or.inr ⟨e, hm2⟩), fun _ => by rw [hm2]; rfl⟩,
          ?_, ?_, Or.inr (by rw [hm2]; rfl)⟩
        · intro d' hd'
          exact absurd hd' (by simp)
        · intro s hs
          exact absurd hs (by simp)
      | ok res =>
        obtain ⟨u, dp, er⟩ := res
        have hm2 : mainRun (.dir d (f :: fs)) =
            .completed (insSort unusedLt u) (insSort dupLt dp)
              (insSort errLt er) := by
          rw [mainRun_dir_cons, hpf]
        refine ⟨⟨?_, ?_⟩, ?_, ?_, Or.inl (by rw [hm2]; rfl)⟩
        · intro h1
          rw [hm2] at h1
          exact absurd h1 (by simp [exitCode])
        · rintro (⟨d', hd'⟩ | ⟨s, hs⟩ | ⟨e, he⟩)
          · exact absurd hd' (by simp)
          · exact absurd hs (by simp)
          · rw [hm2] at he
            exact absurd he (by simp)
        · intro d' hd'
          exact absurd hd' (by simp)
        · intro s hs
          exact absurd hs (by simp)
  | file fn inp =>
    cases hpf : processFiles [(fn, inp)] with
    | error e =>
      have hm2 : mainRun (.file fn inp) = .crashed e := by
        rw [mainRun_file_eq, hpf]
      refine ⟨⟨fun _ => Or.inr (Or.inr ⟨e, hm2⟩), fun _ => by rw [hm2]; rfl⟩,
        ?_, ?_, Or.inr (by rw [hm2]; rfl)⟩
      · intro d' hd'
        exact absurd hd' (by simp)
      · intro s hs
        exact absurd hs (by simp)
    | ok res =>
      obtain ⟨u, dp, er⟩ := res
      have hm2 : mainRun (.file fn inp) =
          .completed (insSort unusedLt u) (insSort dupLt dp)
            (insSort errLt er) := by
        rw [mainRun_file_eq, hpf]
      refine ⟨⟨?_, ?_⟩, ?_, ?_, Or.inl (by rw [hm2]; rfl)⟩
      · intro h1
        rw [hm2] at h1
        exact absurd h1 (by simp [exitCode])
      · rintro (⟨d', hd'⟩ | ⟨s, hs⟩ | ⟨e, he⟩)
        · exact absurd hd' (by simp)
        · exact absurd hs (by simp)
        · rw [hm2] at he
          exact absurd he (by simp)
      · intro d' hd'
        exact absurd hd' (by simp)
      · intro s hs
        exact absurd hs (by simp)
  | invalid s =>
    refine ⟨⟨fun _ => Or.inr (Or.inl ⟨s, rfl⟩), fun _ => rfl⟩, ?_, ?_, Or.inr rfl⟩
    · intro d hd
      exact absurd hd (by simp)
    · intro s' hs'
      injection hs' with h1
      subst h1
      rfl

/-- C6 (counterexample): a directory containing one non-UTF-8 `.py` file is
a valid path with a matching source file, yet the run terminates with the
uncaught `UnicodeDecodeError` — exit code 1, not 0 — refuting "exits with
code 0 in every other case". -/
theorem C6_counterexample :
    mainRun (.dir "d" [("bad.py",
        .readFailure (.unicodeDecodeFailure "invalid start byte"))]) =
      .crashed (.readExc (.unicodeDecodeFailure "invalid start byte")) ∧
    exitCode (mainRun (.dir "d" [("bad.py",
        .readFailure (.unicodeDecodeFailure "invalid start byte"))])) = 1 ∧
    [("bad.py", AnalyzerInput.readFailure
        (.unicodeDecodeFailure "invalid start byte"))] ≠ [] :=
  ⟨rfl, rfl, by simp⟩

/-- C7: two import statements land in the same duplicate group exactly when
their reconstructed single-target canonical texts are character-for-character
equal — a DuplicateImport with statement text `s` is emitted iff at least two
bindings of the walk carry exactly the text `s`; in particular, for the file
`"import os\nimport os as o\n"` (same module, different canonical texts) no
DuplicateImport is emitted at all. -/
theorem C7_text_exact (fn : String) (t : Node) (enum : List String) (s : String) :
    ((∃ d ∈ (analyzeTree fn t enum).2, d.stmt = s) ↔
      2 ≤ ((allBindings t).filter (fun b => b.2.2 == s)).length) ∧
    (analyzeTree "a.py" treeOsAlias ["os", "o"]).2 = [] := by
  constructor
  · constructor
    · rintro ⟨dd, hd, hds⟩
      rcases List.mem_map.mp hd with ⟨p, hp, rfl⟩
      have h1 := List.mem_filter.mp hp
      have hchar := (mem_stmtGroups_iff t p).mp h1.1
      have hlen : 1 < p.2.length := by simpa using h1.2
      have hps : p.1 = s := hds
      rw [hchar.2, hps] at hlen
      have : (linesFor (allBindings t) s).length =
          ((allBindings t).filter (fun b => b.2.2 == s)).length := by
        simp [linesFor]
      omega
    · intro h
      have hlen : 1 < (linesFor (allBindings t) s).length := by
        have : (linesFor (allBindings t) s).length =
            ((allBindings t).filter (fun b => b.2.2 == s)).length := by
          simp [linesFor]
        omega
      have hne : linesFor (allBindings t) s ≠ [] := by
        intro h0
        rw [h0] at hlen
        simp at hlen
      have hp : (s, linesFor (allBindings t) s) ∈ (extract t).stmtGroups :=
        (mem_stmtGroups_iff t (s, linesFor (allBindings t) s)).mpr ⟨hne, rfl⟩
      refine ⟨⟨fn, linesFor (allBindings t) s, s⟩, ?_, rfl⟩
      apply List.mem_map.mpr
      refine ⟨(s, linesFor (allBindings t) s), ?_, rfl⟩
      exact List.mem_filter.mpr ⟨hp, by simpa using hlen⟩
  · decide

/-- C8: for the file `"import json\nimport json\n"`, every run of the
analyzer (whatever order the unused-name set happens to be iterated in, it
holds the single name `json`) returns exactly one UnusedImport record with
line 2 — the last-seen import — and text "import json", and exactly one
DuplicateImport record with lines [1, 2] and text "import json". -/
theorem C8_scenario (enum : List String) (h : ValidEnum treeJsonTwice enum) :
    find_unused_and_duplicate_imports_in_file "f.py"
        (.parsed treeJsonTwice enum) =
      .ok ([.unusedRec "f.py" 2 "import json"],
           [⟨"f.py", [1, 2], "import json"⟩]) := by
  have hu : unusedList treeJsonTwice = ["json"] := by decide
  have henum : enum = ["json"] := by
    apply enum_eq_singleton h.1
    intro s
    constructor
    · intro hs
      have := h.2.1 s hs
      rw [hu] at this
      simpa using this
    · intro hs
      apply h.2.2
      rw [hu, hs]
      simp
  subst henum
  exact congrArg Except.ok (by decide)

theorem C8_witness :
    ValidEnum treeJsonTwice ["json"] ∧
    find_unused_and_duplicate_imports_in_file "f.py"
        (.parsed treeJsonTwice ["json"]) =
      .ok ([.unusedRec "f.py" 2 "import json"],
           [⟨"f.py", [1, 2], "import json"⟩]) :=
  ⟨by decide, C8_scenario ["json"] (by decide)⟩

/-- C9 (counterexample): the analyzer's output order is not a function of
the file alone — for the file `"import a, b\n"` both `["a", "b"]` and
`["b", "a"]` are possible iteration orders of the Python set of unused
names (its order varies with the interpreter's randomized string hashing),
and the two runs produce differently ordered unused-import collections even
after the final sort, whose `(file, line)` keys tie. -/
theorem C9_counterexample :
    ValidEnum treeAB ["a", "b"] ∧ ValidEnum treeAB ["b", "a"] ∧
    mainRun (.file "f.py" (.parsed treeAB ["a", "b"])) ≠
      mainRun (.file "f.py" (.parsed treeAB ["b", "a"])) := by
  refine ⟨by decide, by decide, by decide⟩

/-- C9 (amended): two runs of the analyzer on the same unchanged parsed
file produce the same duplicate and error collections and the same unused
findings up to permutation; the order within the sorted unused collection
can differ between runs only where sort keys tie, because the pre-sort
order comes from iterating the hash-ordered set of unused names.  (With
equal iteration orders the whole output is identical, the pipeline being a
pure function of tree and order.) -/
theorem C9_perm (fn : String) (t : Node) (e₁ e₂ : List String)
    (h₁ : ValidEnum t e₁) (h₂ : ValidEnum t e₂) :
    ∃ u₁ u₂ dp er,
      mainRun (.file fn (.parsed t e₁)) = .completed u₁ dp er ∧
      mainRun (.file fn (.parsed t e₂)) = .completed u₂ dp er ∧
      u₁.Perm u₂ := by
  have hrun : ∀ e : List String,
      mainRun (.file fn (.parsed t e)) =
        .completed (insSort unusedLt (e.map (mkUnused fn (extract t))))
          (insSort dupLt (analyzeTree fn t e).2) [] := by
    intro e
    have hp : processFiles [(fn, .parsed t e)] =
        .ok (e.map (mkUnused fn (extract t)), (analyzeTree fn t e).2, []) := by
      have := @processFiles_cons_ok fn (.parsed t e) []
        (e.map (mkUnused fn (extract t))) (analyzeTree fn t e).2
        [] [] [] rfl rfl
      rwa [filter_stmt_map_mkUnused, filter_err_map_mkUnused,
        List.append_nil, List.append_nil, List.append_nil] at this
    rw [mainRun_file_eq, hp]
    rfl
  have hdp : (analyzeTree fn t e₁).2 = (analyzeTree fn t e₂).2 := rfl
  refine ⟨insSort unusedLt (e₁.map (mkUnused fn (extract t))),
    insSort unusedLt (e₂.map (mkUnused fn (extract t))),
    insSort dupLt (analyzeTree fn t e₁).2, [], hrun e₁, ?_, ?_⟩
  · rw [hrun e₂, hdp]
  · have hperm : (e₁.map (mkUnused fn (extract t))).Perm
        (e₂.map (mkUnused fn (extract t))) :=
      (validEnum_perm h₁ h₂).map (mkUnused fn (extract t))
    exact ((insSort_perm unusedLt _).trans hperm).trans
      (insSort_perm unusedLt _).symm

theorem C9_witness :
    ∃ u₁ u₂ dp er,
      mainRun (.file "f.py" (.parsed treeAB ["a", "b"])) =
        .completed u₁ dp er ∧
      mainRun (.file "f.py" (.parsed treeAB ["a", "b"])) =
        .completed u₂ dp er ∧
      u₁.Perm u₂ :=
  C9_perm "f.py" treeAB ["a", "b"] ["a", "b"] (by decide) (by decide)

/-- C10: whenever the per-file analyzer returns (rather than raising), every
record in the first component carries exactly one of the keys "error" and
"import_statement" — never both, never neither — and if any record carries
"error" then the first component is exactly that single error record and the
duplicates component is empty, so the caller's partition by key presence
neither misclassifies nor drops a record. -/
theorem C10_channels (fn : String) (inp : AnalyzerInput) (u : List Rec)
    (dp : List DupRec)
    (h : find_unused_and_duplicate_imports_in_file fn inp = .ok (u, dp)) :
    (∀ r ∈ u, (r.hasKey "error" = true ∧ r.hasKey "import_statement" = false) ∨
      (r.hasKey "error" = false ∧ r.hasKey "import_statement" = true)) ∧
    ((∃ r ∈ u, r.hasKey "error" = true) →
      (∃ msg, u = [.errorRec fn msg]) ∧ dp = []) := by
  cases inp with
  | readFailure e =>
    cases e with
    | fileNotFound m =>
      have h' : ([Rec.errorRec fn m], ([] : List DupRec)) = (u, dp) := by
        simpa [find_unused_and_duplicate_imports_in_file] using h
      obtain ⟨hu, hdp⟩ : [Rec.errorRec fn m] = u ∧ ([] : List DupRec) = dp :=
        ⟨congrArg Prod.fst h', congrArg Prod.snd h'⟩
      subst hu
      subst hdp
      refine ⟨?_, fun _ => ⟨⟨m, rfl⟩, rfl⟩⟩
      intro r hr
      have : r = Rec.errorRec fn m := by simpa using hr
      subst this
      exact Or.inl ⟨rfl, rfl⟩
    | permissionDenied m =>
      have h' : ([Rec.errorRec fn m], ([] : List DupRec)) = (u, dp) := by
        simpa [find_unused_and_duplicate_imports_in_file] using h
      obtain ⟨hu, hdp⟩ : [Rec.errorRec fn m] = u ∧ ([] : List DupRec) = dp :=
        ⟨congrArg Prod.fst h', congrArg Prod.snd h'⟩
      subst hu
      subst hdp
      refine ⟨?_, fun _ => ⟨⟨m, rfl⟩, rfl⟩⟩
      intro r hr
      have : r = Rec.errorRec fn m := by simpa using hr
      subst this
      exact Or.inl ⟨rfl, rfl⟩
    | unicodeDecodeFailure m =>
      exact absurd h (by simp [find_unused_and_duplicate_imports_in_file])
  | parseFailure m =>
    have h' : ([Rec.errorRec fn ("SyntaxError: " ++ m)], ([] : List DupRec)) =
        (u, dp) := by
      simpa [find_unused_and_duplicate_imports_in_file] using h
    obtain ⟨hu, hdp⟩ : [Rec.errorRec fn ("SyntaxError: " ++ m)] = u ∧
        ([] : List DupRec) = dp :=
      ⟨congrArg Prod.fst h', congrArg Prod.snd h'⟩
    subst hu
    subst hdp
    refine ⟨?_, fun _ => ⟨⟨"SyntaxError: " ++ m, rfl⟩, rfl⟩⟩
    intro r hr
    have : r = Rec.errorRec fn ("SyntaxError: " ++ m) := by simpa using hr
    subst this
    exact Or.inl ⟨rfl, rfl⟩
  | parsed t enum =>
    have h' : analyzeTree fn t enum = (u, dp) := by
      simpa [find_unused_and_duplicate_imports_in_file] using h
    have hu : enum.map (mkUnused fn (extract t)) = u := congrArg Prod.fst h'
    constructor
    · intro r hr
      rw [← hu] at hr
      rcases List.mem_map.mp hr with ⟨nm, _, rfl⟩
      rcases mkUnused_is_unusedRec fn (extract t) nm with ⟨l, s, hmk⟩
      rw [hmk]
      exact Or.inr ⟨rfl, rfl⟩
    · rintro ⟨r, hr, herr⟩
      rw [← hu] at hr
      rcases List.mem_map.mp hr with ⟨nm, _, rfl⟩
      rcases mkUnused_is_unusedRec fn (extract t) nm with ⟨l, s, hmk⟩
      rw [hmk, hasKey_unusedRec_err] at herr
      cases herr

theorem C10_witness :
    (∀ r ∈ [Rec.errorRec "a.py" "SyntaxError: bad"],
      (r.hasKey "error" = true ∧ r.hasKey "import_statement" = false) ∨
      (r.hasKey "error" = false ∧ r.hasKey "import_statement" = true)) ∧
    ((∃ r ∈ [Rec.errorRec "a.py" "SyntaxError: bad"], r.hasKey "error" = true) →
      (∃ msg, [Rec.errorRec "a.py" "SyntaxError: bad"] =
        [Rec.errorRec "a.py" msg]) ∧ ([] : List DupRec) = []) :=
  C10_channels "a.py" (.parseFailure "bad")
    [Rec.errorRec "a.py" "SyntaxError: bad"] [] rfl
